import Mathlib

/-!
Verification of the state-vector quantum-circuit simulation engine
(`modules/complex_.py`, `modules/gates.py`, `modules/circuit.py`).

The Python classes are shallowly embedded: `Complex` becomes a pair of real
numbers, a `QuantumCircuit` becomes a record, and every mutating method
becomes a function from circuits to circuits.  Python float arithmetic is
modelled by exact real arithmetic.  The measurement's call to
`random.random()` is modelled by an explicit real parameter `u`; `simulate`
consumes draws from an explicit list.
-/

namespace QSim

/-- Scalar from `modules/complex_.py` (class `Complex`): a real/imaginary pair. -/
@[ext] structure Complex where
  r : ℝ
  i : ℝ

/-- `Complex.add` (complex_.py:9-10). -/
noncomputable def Complex.add (a b : Complex) : Complex :=
  ⟨a.r + b.r, a.i + b.i⟩

/-- `Complex.multiply` (complex_.py:12-16). -/
noncomputable def Complex.multiply (a b : Complex) : Complex :=
  ⟨a.r * b.r - a.i * b.i, a.r * b.i + a.i * b.r⟩

/-- `Complex.magnitude` (complex_.py:18-19): `sqrt(r*r + i*i)`. -/
noncomputable def Complex.magnitude (a : Complex) : ℝ :=
  Real.sqrt (a.r * a.r + a.i * a.i)

/-- `Complex(0, 0)`. -/
def czero : Complex := ⟨0, 0⟩

/-- `Complex(1, 0)`. -/
def cone : Complex := ⟨1, 0⟩

abbrev StateVec := List Complex
abbrev CMatrix := List (List Complex)

noncomputable instance : Zero Complex := ⟨czero⟩

noncomputable instance : Add Complex := ⟨Complex.add⟩

noncomputable instance : AddCommMonoid Complex where
  add_assoc a b c := by
    show Complex.add (Complex.add a b) c = Complex.add a (Complex.add b c)
    unfold Complex.add; ext <;> dsimp <;> ring
  zero_add a := by
    show Complex.add czero a = a
    unfold Complex.add czero; ext <;> dsimp <;> ring
  add_zero a := by
    show Complex.add a czero = a
    unfold Complex.add czero; ext <;> dsimp <;> ring
  add_comm a b := by
    show Complex.add a b = Complex.add b a
    unfold Complex.add; ext <;> dsimp <;> ring
  nsmul := nsmulRec

/-- A stored operation (circuit.py:35-40): the dict
`\x7b'gate': gate, 'qubits': qubits, 'time': time\x7d`. -/
structure Op where
  gate : String
  qubits : List ℕ
  time : ℤ
deriving DecidableEq

/-- The `QuantumCircuit` object state (circuit.py:14-18). -/
@[ext] structure Circuit where
  num_qubits : ℕ
  gates : List Op
  initial_state : StateVec
  state_vector : StateVec

/-- `QuantumCircuit.initialize_state` (circuit.py:20-27).  The Python guard
`if self.initial_state is not None` always succeeds, because the attribute is
initialized to the empty list `[]` (which is not `None`) and is only ever
assigned list values; so the method always returns a copy of
`self.initial_state`, and the ground-state construction below the guard
(`state[0] = Complex(1, 0)`) is unreachable dead code. -/
def initialize_state (c : Circuit) : StateVec :=
  c.initial_state

/-- The ground state the dead branch of `initialize_state` (circuit.py:24-27)
was written to produce: amplitude 1 at index 0, amplitude 0 elsewhere. -/
def groundState (n : ℕ) : StateVec :=
  (List.range (2 ^ n)).map (fun i => if i = 0 then cone else czero)

/-- `QuantumCircuit.__init__` (circuit.py:14-18): `initial_state` starts as
`[]` and `state_vector` is produced by `initialize_state`. -/
def Circuit.init (n : ℕ) : Circuit :=
  let c0 : Circuit :=
    { num_qubits := n, gates := [], initial_state := [], state_vector := [] }
  { c0 with state_vector := initialize_state c0 }

/-- `QuantumCircuit.set_initial_state` (circuit.py:29-33): only acts when the
given vector has length `2 ** num_qubits`; otherwise the call does nothing. -/
def set_initial_state (c : Circuit) (sv : StateVec) : Circuit :=
  if sv.length = 2 ^ c.num_qubits then
    let c' := { c with initial_state := sv }
    { c' with state_vector := initialize_state c' }
  else c

/-- `QuantumCircuit.add_gate` (circuit.py:35-40); the qubit argument is
modelled as already being a list. -/
def add_gate (c : Circuit) (g : String) (qs : List ℕ) (t : ℤ) : Circuit :=
  { c with gates := c.gates ++ [{ gate := g, qubits := qs, time := t }] }

/-- Sum of squared magnitudes of a state vector, the quantity the
normalization invariant constrains. -/
noncomputable def sumMagSq (sv : StateVec) : ℝ :=
  (sv.map (fun a => a.magnitude ^ 2)).sum

/-- Builds the embedding of a real matrix entry of the Python gate table. -/
def cr (x : ℝ) : Complex := ⟨x, 0⟩

/-- Builds the embedding of a purely imaginary entry of the gate table. -/
def cim (x : ℝ) : Complex := ⟨0, x⟩

/-- One entry of `QuantumGates.GATES` (modules/gates.py): the display name
and description strings, the optional `matrix`, and the arity field
`qubits`.  The `M` entry has no matrix. -/
structure GateDef where
  name : String
  matrix : Option CMatrix
  qubits : ℕ
  description : String

/-- The static gate table `QuantumGates.GATES` (modules/gates.py:5-80),
embedded as a lookup function; `none` models a missing dictionary key. -/
noncomputable def GATES (s : String) : Option GateDef :=
  if s = "I" then
    some ⟨"Identity", some [[cr 1, cr 0], [cr 0, cr 1]], 1, "Identity gate - no operation"⟩
  else if s = "X" then
    some ⟨"Pauli-X", some [[cr 0, cr 1], [cr 1, cr 0]], 1, "NOT gate - flips qubit state"⟩
  else if s = "Y" then
    some ⟨"Pauli-Y", some [[cr 0, cim (-1)], [cim 1, cr 0]], 1, "Pauli-Y gate"⟩
  else if s = "Z" then
    some ⟨"Pauli-Z", some [[cr 1, cr 0], [cr 0, cr (-1)]], 1, "Phase flip gate"⟩
  else if s = "H" then
    some ⟨"Hadamard", some [[cr (1 / Real.sqrt 2), cr (1 / Real.sqrt 2)],
      [cr (1 / Real.sqrt 2), cr (-(1 / Real.sqrt 2))]], 1, "Creates superposition"⟩
  else if s = "S" then
    some ⟨"S Gate", some [[cr 1, cr 0], [cr 0, cim 1]], 1, "Phase gate (90 deg rotation)"⟩
  else if s = "T" then
    some ⟨"T Gate", some [[cr 1, cr 0],
      [cr 0, ⟨Real.cos (Real.pi / 4), Real.sin (Real.pi / 4)⟩]], 1, "T gate (45 deg rotation)"⟩
  else if s = "CNOT" then
    some ⟨"Controlled-NOT", some [[cr 1, cr 0, cr 0, cr 0], [cr 0, cr 1, cr 0, cr 0],
      [cr 0, cr 0, cr 0, cr 1], [cr 0, cr 0, cr 1, cr 0]], 2, "Controlled NOT gate"⟩
  else if s = "CZ" then
    some ⟨"Controlled-Z", some [[cr 1, cr 0, cr 0, cr 0], [cr 0, cr 1, cr 0, cr 0],
      [cr 0, cr 0, cr 1, cr 0], [cr 0, cr 0, cr 0, cr (-1)]], 2, "Controlled Z gate"⟩
  else if s = "SWAP" then
    some ⟨"SWAP", some [[cr 1, cr 0, cr 0, cr 0], [cr 0, cr 0, cr 1, cr 0],
      [cr 0, cr 1, cr 0, cr 0], [cr 0, cr 0, cr 0, cr 1]], 2, "Swaps two qubits"⟩
  else if s = "CCNOT" then
    some ⟨"Toffoli", some [
      [cr 1, cr 0, cr 0, cr 0, cr 0, cr 0, cr 0, cr 0],
      [cr 0, cr 1, cr 0, cr 0, cr 0, cr 0, cr 0, cr 0],
      [cr 0, cr 0, cr 1, cr 0, cr 0, cr 0, cr 0, cr 0],
      [cr 0, cr 0, cr 0, cr 1, cr 0, cr 0, cr 0, cr 0],
      [cr 0, cr 0, cr 0, cr 0, cr 1, cr 0, cr 0, cr 0],
      [cr 0, cr 0, cr 0, cr 0, cr 0, cr 1, cr 0, cr 0],
      [cr 0, cr 0, cr 0, cr 0, cr 0, cr 0, cr 0, cr 1],
      [cr 0, cr 0, cr 0, cr 0, cr 0, cr 0, cr 1, cr 0]], 3, "Controlled-Controlled-NOT gate"⟩
  else if s = "M" then
    some ⟨"Measurement", none, 1, "Measurement operation"⟩
  else none

/-- One iteration of the loop in `get_matrix_element` (circuit.py:150-169):
for qubit `i`, extract the row/column bits; a target qubit contributes to the
local gate row/column; a non-target qubit whose bits differ breaks the loop
(`none`). -/
def gmeStep (n gate_bits : ℕ) (qubits : List ℕ) (row col i : ℕ)
    (acc : ℕ × ℕ) : Option (ℕ × ℕ) :=
  let row_bit := (row >>> (n - 1 - i)) &&& 1
  let col_bit := (col >>> (n - 1 - i)) &&& 1
  if i ∈ qubits then
    let p := qubits.indexOf i
    some (acc.1 ||| (row_bit <<< (gate_bits - 1 - p)),
          acc.2 ||| (col_bit <<< (gate_bits - 1 - p)))
  else if row_bit = col_bit then some acc else none

/-- The loop of `get_matrix_element` over the remaining qubit indices, with
early exit on a non-target bit mismatch. -/
def gmeFold (n gate_bits : ℕ) (qubits : List ℕ) (row col : ℕ) :
    List ℕ → ℕ × ℕ → Option (ℕ × ℕ)
  | [], acc => some acc
  | i :: is, acc =>
    match gmeStep n gate_bits qubits row col i acc with
    | none => none
    | some acc' => gmeFold n gate_bits qubits row col is acc'

/-- The accumulation of one local-index component (`gate_row` or
`gate_col`) across the loop of `get_matrix_element`, for source index
`src` (the full-space row or column): target qubits OR their bit into
position `k - 1 - indexOf`. -/
def orAcc (n k : ℕ) (qubits : List ℕ) (src : ℕ) (L : List ℕ) (a : ℕ) : ℕ :=
  L.foldl (fun acc i =>
    if i ∈ qubits then
      acc ||| (((src >>> (n - 1 - i)) &&& 1) <<< (k - 1 - qubits.indexOf i))
    else acc) a

/-- `QuantumCircuit.get_matrix_element` (circuit.py:142-177).  `gate_bits`
is `int(math.log2(len(gate_matrix)))`, exact for power-of-two sizes.  The
final matrix access is total via `getD`; the claims keep it in bounds. -/
def get_matrix_element (n : ℕ) (gate_matrix : CMatrix) (qubits : List ℕ)
    (row col : ℕ) : Complex :=
  let gate_bits := Nat.log2 gate_matrix.length
  match gmeFold n gate_bits qubits row col (List.range n) (0, 0) with
  | none => czero
  | some (gr, gc) => (gate_matrix.getD gr []).getD gc czero

/-- `QuantumCircuit.expand_gate_matrix` (circuit.py:132-140). -/
def expand_gate_matrix (n : ℕ) (gate_matrix : CMatrix) (qubits : List ℕ) : CMatrix :=
  (List.range (2 ^ n)).map (fun i =>
    (List.range (2 ^ n)).map (fun j => get_matrix_element n gate_matrix qubits i j))

/-- Inner accumulation of `multiply_matrix_vector` (circuit.py:182-184):
`result[i] = result[i].add(matrix[i][j].multiply(vector[j]))` over `j`. -/
noncomputable def row_dot (rowv : List Complex) (v : StateVec) : Complex :=
  (List.range v.length).foldl
    (fun acc j => acc.add ((rowv.getD j czero).multiply (v.getD j czero))) czero

/-- `QuantumCircuit.multiply_matrix_vector` (circuit.py:179-186): the result
list has the vector's length and starts as all `Complex(0, 0)`. -/
noncomputable def multiply_matrix_vector (m : CMatrix) (v : StateVec) : StateVec :=
  (List.range v.length).map (fun i => row_dot (m.getD i []) v)

/-- `QuantumCircuit.apply_gate` (circuit.py:124-130): unknown symbols and
the matrix-less `M` entry return with no state change. -/
noncomputable def apply_gate (c : Circuit) (gate_name : String) (qubits : List ℕ) : Circuit :=
  match GATES gate_name with
  | none => c
  | some g =>
    match g.matrix with
    | none => c
    | some m =>
      { c with state_vector :=
          multiply_matrix_vector (expand_gate_matrix c.num_qubits m qubits) c.state_vector }

/-- The probability-of-|0⟩ loop of `measure_qubit` (circuit.py:45-71): sum of
`|amplitude|²` over basis indices whose bit for `qubit_index` is 0, tested by
`not (i & (1 << (num_qubits - 1 - qubit_index)))`. -/
noncomputable def prob0 (c : Circuit) (q : ℕ) : ℝ :=
  ∑ i in Finset.range (2 ^ c.num_qubits),
    if i &&& (1 <<< (c.num_qubits - 1 - q)) = 0 then
      (c.state_vector.getD i czero).magnitude ^ 2
    else 0

/-- The collapse loop of `measure_qubit` (circuit.py:77-93): keep amplitudes
whose qubit bit equals the measurement result, zero elsewhere. -/
noncomputable def collapse (c : Circuit) (q : ℕ) (result : ℕ) : StateVec :=
  (List.range (2 ^ c.num_qubits)).map (fun i =>
    if (i >>> (c.num_qubits - 1 - q)) &&& 1 = result then
      c.state_vector.getD i czero
    else czero)

/-- The norm accumulated during the collapse loop (circuit.py:78-93): the sum
of `|amplitude|²` over the kept basis states. -/
noncomputable def collapseNorm (c : Circuit) (q : ℕ) (result : ℕ) : ℝ :=
  ∑ i in Finset.range (2 ^ c.num_qubits),
    if (i >>> (c.num_qubits - 1 - q)) &&& 1 = result then
      (c.state_vector.getD i czero).magnitude ^ 2
    else 0

/-- The renormalization loop of `measure_qubit` (circuit.py:96-102): every
entry of the collapsed state, scaled componentwise by `norm_factor`. -/
noncomputable def scaledCollapse (c : Circuit) (q b : ℕ) (f : ℝ) : StateVec :=
  (collapse c q b).map (fun a => (⟨a.r * f, a.i * f⟩ : Complex))

/-- `QuantumCircuit.measure_qubit` (circuit.py:42-105), with the value of
`random.random()` passed in as `u`.  The outcome is 0 when `u < prob_0`,
the state is collapsed, and the kept amplitudes are rescaled by
`1.0 / math.sqrt(norm)` only when `norm > 1e-10`. -/
noncomputable def measure_qubit (c : Circuit) (q : ℕ) (u : ℝ) : Circuit × ℕ :=
  let p0 := prob0 c q
  let result := if u < p0 then 0 else 1
  let ns := collapse c q result
  let norm := collapseNorm c q result
  let final :=
    if (1 : ℝ) / 10 ^ 10 < norm then
      ns.map (fun a => ⟨a.r * (1 / Real.sqrt norm), a.i * (1 / Real.sqrt norm)⟩)
    else ns
  ({ c with state_vector := final }, result)

/-- The results record returned by `get_results` (circuit.py:189-198). -/
structure Results where
  state_vector : StateVec
  probabilities : List ℝ
  state_labels : List String

/-- Digits of Python `bin(n)[2:]` for positive `n`: most-significant first,
no leading zeros. -/
def pyBinAux (n : ℕ) : List Char :=
  if _h : n = 0 then []
  else pyBinAux (n / 2) ++ [if n % 2 = 1 then '1' else '0']
termination_by n
decreasing_by exact Nat.div_lt_self (Nat.pos_of_ne_zero _h) one_lt_two

/-- Python `bin(n)[2:]`: the binary representation, `"0"` for zero. -/
def pyBin (n : ℕ) : List Char :=
  if n = 0 then ['0'] else pyBinAux n

/-- Python `str.zfill`: left-pad with `'0'` to width `w` (never truncates). -/
def zfill (s : List Char) (w : ℕ) : List Char :=
  List.replicate (w - s.length) '0' ++ s

/-- `QuantumCircuit.get_results` (circuit.py:189-198): returns the state
vector itself, the squared magnitudes, and ket labels
`'|' + bin(i)[2:].zfill(num_qubits) + '⟩'` for each index of the state
vector.  It reads the circuit and builds fresh lists, mutating nothing. -/
noncomputable def get_results (c : Circuit) : Results :=
  { state_vector := c.state_vector
    probabilities := c.state_vector.map (fun a => a.magnitude ^ 2)
    state_labels := (List.range c.state_vector.length).map (fun i =>
      String.mk ('|' :: (zfill (pyBin i) c.num_qubits ++ ['⟩']))) }

/-- The schedule built by `simulate` (circuit.py:109):
`sorted(self.gates, key=lambda g: g['time'])`.  Python's `sorted` is a
stable sort, which `List.mergeSort` implements. -/
def sortOps (gs : List Op) : List Op :=
  gs.mergeSort (fun a b => decide (a.time ≤ b.time))

/-- The loop state of `simulate`: the circuit (whose `state_vector` the loop
mutates), the `measurement_results` dictionary, and the remaining random
draws. -/
structure RunAcc where
  circ : Circuit
  meas : ℕ → Option ℕ
  rnd : List ℝ

/-- One iteration of the `simulate` loop (circuit.py:112-119): `'M'` invokes
`measure_qubit` on `qubits[0]` and records the outcome (overwriting any
earlier outcome at that qubit); anything else goes to `apply_gate`. -/
noncomputable def runOp (acc : RunAcc) (op : Op) : RunAcc :=
  if op.gate = "M" then
    let q := op.qubits.headD 0
    let m := measure_qubit acc.circ q (acc.rnd.headD 0)
    { circ := m.1,
      meas := fun k => if k = q then some m.2 else acc.meas k,
      rnd := acc.rnd.tail }
  else
    { acc with circ := apply_gate acc.circ op.gate op.qubits }

/-- The body of `simulate` after the initial state reset: fold the sorted
operations, then call `get_results` (circuit.py:110-122). -/
noncomputable def simRun (c : Circuit) (ops : List Op) (rnd : List ℝ) :
    Circuit × Results × (ℕ → Option ℕ) :=
  let acc := ops.foldl runOp { circ := c, meas := fun _ => none, rnd := rnd }
  (acc.circ, get_results acc.circ, acc.meas)

/-- `QuantumCircuit.simulate` (circuit.py:107-122): reset the state vector
via `initialize_state`, then replay the time-sorted operations.  The mutated
circuit is returned alongside the results and the measurement dictionary. -/
noncomputable def simulate (c : Circuit) (rnd : List ℝ) :
    Circuit × Results × (ℕ → Option ℕ) :=
  simRun { c with state_vector := initialize_state c } (sortOps c.gates) rnd

/-- Spec-side bit of qubit `q` in a full-space index `x` of an `n`-qubit
register: qubit 0 is the most-significant bit of the index. -/
def qbit (n : ℕ) (x q : ℕ) : Bool :=
  x.testBit (n - 1 - q)

/-- Spec-side local index: the number formed by placing the bit of the
`p`-th listed target qubit at local bit position `k - 1 - p` (`k` the number
of targets), as the claim states. -/
def localIdx (n : ℕ) (qubits : List ℕ) (x : ℕ) : ℕ :=
  match qubits with
  | [] => 0
  | q :: qs => (if qbit n x q then 1 else 0) * 2 ^ qs.length + localIdx n qs x

/-- Spec-side tensor-embedded operator entry: zero when some non-target
qubit's bit differs between row and column, otherwise the local gate-matrix
entry at the local row/column indices. -/
def specEntry (n : ℕ) (M : CMatrix) (qubits : List ℕ) (row col : ℕ) : Complex :=
  if ∀ i < n, i ∉ qubits → qbit n row i = qbit n col i then
    (M.getD (localIdx n qubits row) []).getD (localIdx n qubits col) czero
  else czero

/-- Spec-side basis label body: the binary representation of `i`,
zero-padded to `n` bits, most-significant bit first. -/
def specBits (n i : ℕ) : List Char :=
  (List.range n).map (fun p => if i.testBit (n - 1 - p) then '1' else '0')

/-- A concrete 1-qubit circuit holding the normalized state `[1, 0]`, used
to instantiate theorems at a concrete input. -/
def exCirc1 : Circuit :=
  { num_qubits := 1, gates := [], initial_state := [cone, czero],
    state_vector := [cone, czero] }

/-- The gate-table entry the embedding assigns to the symbol `"X"`. -/
noncomputable def gateX : GateDef :=
  { name := "Pauli-X", matrix := some [[cr 0, cr 1], [cr 1, cr 0]], qubits := 1,
    description := "NOT gate - flips qubit state" }

/-- A concrete 1-qubit circuit whose state vector is identically zero. -/
def exCircZero : Circuit :=
  { num_qubits := 1, gates := [], initial_state := [czero, czero],
    state_vector := [czero, czero] }

/-- A concrete 1-qubit circuit holding the tiny non-normalized state
`[1e-6, 0]`, whose squared norm `1e-12` is below the `1e-10` threshold. -/
noncomputable def exCircTiny : Circuit :=
  { num_qubits := 1, gates := [], initial_state := [⟨1 / 1000000, 0⟩, czero],
    state_vector := [⟨1 / 1000000, 0⟩, czero] }

end QSim

namespace QSim

theorem magnitude_sq (a : Complex) : a.magnitude ^ 2 = a.r ^ 2 + a.i ^ 2 := by
  unfold Complex.magnitude
  rw [Real.sq_sqrt (add_nonneg (mul_self_nonneg _) (mul_self_nonneg _))]
  ring

/-- C3: the claim says that with no custom initial state supplied, the state
vector after construction and at the start of `simulate()` is the ground
state (amplitude 1 at index 0).  The code disagrees: `initial_state` is
initialized to `[]`, the guard `if self.initial_state is not None` is then
always true, so `initialize_state` returns a copy of the empty list and the
state vector after construction is `[]`, not the ground state. -/
theorem initial_state_vector_is_empty_not_ground :
    (Circuit.init 1).state_vector = [] ∧
    groundState 1 = [cone, czero] ∧
    (Circuit.init 1).state_vector ≠ groundState 1 := by
  refine ⟨rfl, ?_, ?_⟩
  · simp [groundState, List.range_succ]
  · intro h
    have hg : groundState 1 = [cone, czero] := by simp [groundState, List.range_succ]
    rw [hg] at h
    simp [Circuit.init, initialize_state] at h

/-- C2: the claim says the sum of squared amplitude magnitudes is about 1
after initialization.  On the code it is 0 after default construction (the
state vector is the empty list, see C3), and `set_initial_state` stores a
custom vector without normalizing it, so a vector of squared norm 4 is kept
as-is. -/
theorem sumMagSq_violated_after_initialization :
    sumMagSq (Circuit.init 1).state_vector = 0 ∧
    sumMagSq (set_initial_state (Circuit.init 1) [⟨2, 0⟩, czero]).state_vector = 4 := by
  constructor
  · simp [Circuit.init, initialize_state, sumMagSq]
  · have h2 : ((2 : ℕ) ^ 1) = 2 := by norm_num
    simp only [set_initial_state, Circuit.init, initialize_state]
    norm_num [sumMagSq, magnitude_sq, czero]

/-- C7: an initial-state vector whose length differs from `2 ** num_qubits`
is rejected and nothing is mutated: the circuit record (in particular the
stored initial state and the current state vector) is returned unchanged. -/
theorem set_initial_state_rejects_bad_length (c : Circuit) (v : StateVec)
    (h : v.length ≠ 2 ^ c.num_qubits) :
    set_initial_state c v = c ∧
    (set_initial_state c v).initial_state = c.initial_state ∧
    (set_initial_state c v).state_vector = c.state_vector := by
  have he : set_initial_state c v = c := by
    unfold set_initial_state
    simp [h]
  exact ⟨he, by rw [he], by rw [he]⟩

/-- Witness for C7 at a concrete input: the empty vector has length 0 ≠ 2¹. -/
theorem set_initial_state_rejects_bad_length_witness :
    ([] : StateVec).length ≠ 2 ^ (Circuit.init 1).num_qubits ∧
    set_initial_state (Circuit.init 1) [] = Circuit.init 1 :=
  ⟨by decide, (set_initial_state_rejects_bad_length (Circuit.init 1) [] (by decide)).1⟩

theorem bitval_eq_testBit (x e : ℕ) :
    (x >>> e) &&& 1 = (if x.testBit e then 1 else 0) := by
  rw [Nat.and_one_is_mod, Nat.shiftRight_eq_div_pow, Nat.testBit_to_div_mod]
  rcases Nat.mod_two_eq_zero_or_one (x / 2 ^ e) with h | h <;> simp [h]

theorem maskCond_iff_testBit (x e : ℕ) :
    x &&& (1 <<< e) = 0 ↔ x.testBit e = false := by
  rw [Nat.one_shiftLeft]
  constructor
  · intro h
    have ht := congrArg (fun y => y.testBit e) h
    simpa [Nat.testBit_two_pow] using ht
  · intro h
    apply Nat.eq_of_testBit_eq
    intro j
    rcases eq_or_ne j e with rfl | hj
    · simp [h]
    · simp [Nat.testBit_two_pow, (Ne.symm hj)]

theorem apply_gate_frame (c : Circuit) (name : String) (qs : List ℕ) :
    (apply_gate c name qs).num_qubits = c.num_qubits ∧
    (apply_gate c name qs).gates = c.gates ∧
    (apply_gate c name qs).initial_state = c.initial_state := by
  unfold apply_gate
  cases GATES name with
  | none => exact ⟨rfl, rfl, rfl⟩
  | some g =>
    obtain ⟨gn, gm, gq, gd⟩ := g
    cases gm with
    | none => exact ⟨rfl, rfl, rfl⟩
    | some m => exact ⟨rfl, rfl, rfl⟩

/-- C8: an unregistered gate symbol (one missing from the table, so lookup
yields `none`) is a no-op: `apply_gate` returns the circuit unchanged, and
a scheduled operation with that symbol leaves the whole loop state (state
vector included) unchanged during `simulate`. -/
theorem unknown_gate_is_noop (c : Circuit) (name : String) (qs : List ℕ)
    (h : GATES name = none) :
    apply_gate c name qs = c ∧
    ∀ (acc : RunAcc) (t : ℤ), runOp acc { gate := name, qubits := qs, time := t } = acc := by
  have hap : ∀ c' : Circuit, apply_gate c' name qs = c' := by
    intro c'; unfold apply_gate; rw [h]
  have hM : name ≠ "M" := by
    intro he
    rw [he] at h
    simp [GATES] at h
  refine ⟨hap c, ?_⟩
  intro acc t
  unfold runOp
  simp only [if_neg hM, hap]

/-- Witness for C8: the symbol `"Q"` is not in the gate table. -/
theorem unknown_gate_is_noop_witness :
    GATES "Q" = none ∧ apply_gate (Circuit.init 1) "Q" [0] = Circuit.init 1 :=
  ⟨by simp [GATES], (unknown_gate_is_noop (Circuit.init 1) "Q" [0] (by simp [GATES])).1⟩

theorem runOp_frame (acc : RunAcc) (op : Op) :
    (runOp acc op).circ.num_qubits = acc.circ.num_qubits ∧
    (runOp acc op).circ.gates = acc.circ.gates ∧
    (runOp acc op).circ.initial_state = acc.circ.initial_state := by
  unfold runOp
  by_cases h : op.gate = "M"
  · simp only [if_pos h]
    exact ⟨rfl, rfl, rfl⟩
  · simp only [if_neg h]
    exact apply_gate_frame acc.circ op.gate op.qubits

theorem foldl_runOp_frame (ops : List Op) (acc : RunAcc) :
    ((ops.foldl runOp acc).circ.num_qubits = acc.circ.num_qubits ∧
     (ops.foldl runOp acc).circ.gates = acc.circ.gates ∧
     (ops.foldl runOp acc).circ.initial_state = acc.circ.initial_state) := by
  induction ops generalizing acc with
  | nil => exact ⟨rfl, rfl, rfl⟩
  | cons op rest ih =>
    have h1 := runOp_frame acc op
    have h2 := ih (runOp acc op)
    simp only [List.foldl_cons]
    exact ⟨h2.1.trans h1.1, h2.2.1.trans h1.2.1, h2.2.2.trans h1.2.2⟩

/-- C10: `simulate` only rewrites the state vector: the qubit count, the
gate list (contents and order) and the stored initial state survive a run
unchanged, and a second run from the mutated circuit coincides with a second
run from the original circuit (each run replays from a freshly initialized
state vector). -/
theorem simulate_frame (c : Circuit) (rnd : List ℝ) :
    (simulate c rnd).1.num_qubits = c.num_qubits ∧
    (simulate c rnd).1.gates = c.gates ∧
    (simulate c rnd).1.initial_state = c.initial_state ∧
    ∀ rnd' : List ℝ, simulate (simulate c rnd).1 rnd' = simulate c rnd' := by
  have hf := foldl_runOp_frame (sortOps c.gates)
    { circ := { c with state_vector := initialize_state c },
      meas := fun _ => none, rnd := rnd }
  refine ⟨hf.1, hf.2.1, hf.2.2, ?_⟩
  intro rnd'
  have hgates : (simulate c rnd).1.gates = c.gates := hf.2.1
  have hinit : (simulate c rnd).1.initial_state = c.initial_state := hf.2.2
  have hnum : (simulate c rnd).1.num_qubits = c.num_qubits := hf.1
  have hcirc :
      ({ (simulate c rnd).1 with
          state_vector := initialize_state (simulate c rnd).1 } : Circuit) =
      { c with state_vector := initialize_state c } := by
    ext1 <;> simp [initialize_state, hgates, hinit, hnum]
  show simRun
      { (simulate c rnd).1 with state_vector := initialize_state (simulate c rnd).1 }
      (sortOps (simulate c rnd).1.gates) rnd' =
    simRun { c with state_vector := initialize_state c } (sortOps c.gates) rnd'
  rw [hcirc, hgates]

theorem le_time_trans : ∀ a b d : Op,
    decide (a.time ≤ b.time) → decide (b.time ≤ d.time) → decide (a.time ≤ d.time) := by
  intro a b d hab hbd
  simp only [decide_eq_true_eq] at *
  omega

theorem le_time_total : ∀ a b : Op,
    decide (a.time ≤ b.time) || decide (b.time ≤ a.time) := by
  intro a b
  rcases le_total a.time b.time with h | h <;> simp [h]

/-- C5: the execution order of `simulate`.  The schedule `sortOps` is sorted
by time, is a permutation of the stored gate list, and is stable: for each
time value the operations at that time appear in their original insertion
order.  `simulate` is exactly the replay of that schedule. -/
theorem simulate_order (c : Circuit) (rnd : List ℝ) :
    (sortOps c.gates).Pairwise (fun a b => a.time ≤ b.time) ∧
    (∀ t : ℤ, (sortOps c.gates).filter (fun op => decide (op.time = t)) =
      c.gates.filter (fun op => decide (op.time = t))) ∧
    (sortOps c.gates).Perm c.gates ∧
    simulate c rnd =
      simRun { c with state_vector := initialize_state c } (sortOps c.gates) rnd := by
  refine ⟨?_, ?_, List.mergeSort_perm c.gates _, rfl⟩
  · have hs := List.sorted_mergeSort le_time_trans le_time_total c.gates
    exact hs.imp (fun h => by simpa using h)
  · intro t
    set p : Op → Bool := fun op => decide (op.time = t) with hp
    have hpw : (c.gates.filter p).Pairwise (fun a b => decide (a.time ≤ b.time) = true) := by
      apply List.pairwise_of_forall_mem_list
      intro a ha b hb
      have ha' := (List.mem_filter.mp ha).2
      have hb' := (List.mem_filter.mp hb).2
      simp only [hp, decide_eq_true_eq] at ha' hb' ⊢
      omega
    have hsub : List.Sublist (c.gates.filter p) (sortOps c.gates) :=
      List.sublist_mergeSort le_time_trans le_time_total hpw (List.filter_sublist c.gates)
    have hsub2 : List.Sublist ((c.gates.filter p).filter p) ((sortOps c.gates).filter p) :=
      hsub.filter p
    rw [List.filter_filter] at hsub2
    have hpp : (fun a => p a && p a) = p := by
      funext a; rcases Bool.eq_false_or_eq_true (p a) with h | h <;> simp [h]
    rw [hpp] at hsub2
    have hperm : ((sortOps c.gates).filter p).Perm (c.gates.filter p) :=
      (List.mergeSort_perm c.gates _).filter p
    exact (hsub2.eq_of_length hperm.length_eq.symm).symm

theorem pyBinAux_zero : pyBinAux 0 = [] := by
  unfold pyBinAux
  simp

theorem pyBinAux_pos (n : ℕ) (h : n ≠ 0) :
    pyBinAux n = pyBinAux (n / 2) ++ [if n % 2 = 1 then '1' else '0'] := by
  conv_lhs => rw [pyBinAux]
  simp [h]

theorem specBits_zero_eq_replicate (w : ℕ) :
    specBits w 0 = List.replicate w '0' := by
  unfold specBits
  simp [Nat.zero_testBit]

theorem specBits_succ (k i : ℕ) :
    specBits (k + 1) i = specBits k (i / 2) ++ [if i % 2 = 1 then '1' else '0'] := by
  unfold specBits
  rw [List.range_succ, List.map_append]
  congr 1
  · apply List.map_congr_left
    intro p hp
    have hp' : p < k := List.mem_range.mp hp
    rw [Nat.testBit_div_two]
    have : k - 1 - p + 1 = k + 1 - 1 - p := by omega
    rw [this]
  · have h0 : k + 1 - 1 - k = 0 := by omega
    simp only [List.map_cons, List.map_nil, h0, Nat.testBit_zero]
    by_cases hm : i % 2 = 1 <;> simp [hm]

theorem zfill_append_singleton (s : List Char) (ch : Char) (k : ℕ) :
    zfill (s ++ [ch]) (k + 1) = zfill s k ++ [ch] := by
  unfold zfill
  simp [Nat.succ_sub_succ, List.append_assoc]

theorem zfill_pyBinAux (w : ℕ) : ∀ i, i < 2 ^ w → zfill (pyBinAux i) w = specBits w i := by
  induction w with
  | zero =>
    intro i hi
    have h0 : i = 0 := by simpa using Nat.lt_one_iff.mp (by simpa using hi)
    subst h0
    simp [pyBinAux_zero, zfill, specBits]
  | succ k ih =>
    intro i hi
    by_cases h0 : i = 0
    · subst h0
      rw [pyBinAux_zero, specBits_zero_eq_replicate]
      simp [zfill]
    · rw [pyBinAux_pos i h0, zfill_append_singleton, specBits_succ]
      have h2 : (2 : ℕ) ^ (k + 1) = 2 ^ k * 2 := pow_succ 2 k
      have hdiv : i / 2 < 2 ^ k := by omega
      rw [ih (i / 2) hdiv]

theorem zfill_pyBin (w i : ℕ) (hw : 1 ≤ w) (hi : i < 2 ^ w) :
    zfill (pyBin i) w = specBits w i := by
  by_cases h0 : i = 0
  · subst h0
    obtain ⟨k, rfl⟩ : ∃ k, w = k + 1 := ⟨w - 1, by omega⟩
    rw [specBits_zero_eq_replicate]
    unfold pyBin zfill
    simp [List.replicate_succ' k '0']
  · unfold pyBin
    rw [if_neg h0]
    exact zfill_pyBinAux w i hi

/-- C9: `get_results` mutates nothing (the circuit field it reads is handed
back unchanged), its `probabilities` list holds `|state[i]|²`, and its
`state_labels` list holds the ket-wrapped binary representation of `i`,
zero-padded to `num_qubits` bits, most-significant bit first. -/
theorem get_results_spec (c : Circuit) (hn : 1 ≤ c.num_qubits)
    (hsv : c.state_vector.length = 2 ^ c.num_qubits) (i : ℕ)
    (hi : i < 2 ^ c.num_qubits) :
    (get_results c).state_vector = c.state_vector ∧
    (get_results c).probabilities.getD i 0 =
      (c.state_vector.getD i czero).magnitude ^ 2 ∧
    (get_results c).state_labels.getD i "" =
      String.mk ('|' :: (specBits c.num_qubits i ++ ['⟩'])) := by
  have hi' : i < c.state_vector.length := by rw [hsv]; exact hi
  refine ⟨rfl, ?_, ?_⟩
  · unfold get_results
    simp [List.getElem?_eq_getElem hi']
  · unfold get_results
    have hir : i < (List.range c.state_vector.length).length := by
      simpa using hi'
    simp only [List.getD_eq_getElem?_getD, List.getElem?_map,
      List.getElem?_eq_getElem hir, List.getElem_range, Option.map_some',
      Option.getD_some]
    rw [zfill_pyBin c.num_qubits i hn hi]

/-- Witness for C9 at a concrete circuit (1 qubit, state `[1, 0]`, index 1). -/
theorem get_results_spec_witness :
    (1 ≤ exCirc1.num_qubits ∧ exCirc1.state_vector.length = 2 ^ exCirc1.num_qubits ∧
      1 < 2 ^ exCirc1.num_qubits) ∧
    (get_results exCirc1).state_labels.getD 1 "" =
      String.mk ('|' :: (specBits exCirc1.num_qubits 1 ++ ['⟩'])) :=
  ⟨⟨le_refl 1, by simp [exCirc1], by norm_num [exCirc1]⟩,
    (get_results_spec exCirc1 (le_refl 1) (by simp [exCirc1]) 1 (by norm_num [exCirc1])).2.2⟩

theorem sum_map_range (m : ℕ) (f : ℕ → ℝ) :
    ((List.range m).map f).sum = ∑ i in Finset.range m, f i := by
  induction m with
  | zero => simp
  | succ k ih => simp [List.range_succ, Finset.sum_range_succ, ih]

theorem getD_map_range (m : ℕ) (g : ℕ → Complex) (i : ℕ) (hi : i < m) :
    ((List.range m).map g).getD i czero = g i := by
  have hlen : i < ((List.range m).map g).length := by simpa using hi
  rw [List.getD_eq_getElem?_getD, List.getElem?_eq_getElem hlen]
  simp

theorem magnitude_czero : czero.magnitude ^ 2 = 0 := by
  rw [magnitude_sq]
  simp [czero]

theorem collapseNorm_nonneg (c : Circuit) (q b : ℕ) : 0 ≤ collapseNorm c q b := by
  unfold collapseNorm
  apply Finset.sum_nonneg
  intro i _
  split
  · positivity
  · exact le_refl 0

theorem measure_result_eq (c : Circuit) (q : ℕ) (u : ℝ) :
    (measure_qubit c q u).2 = if u < prob0 c q then 0 else 1 := rfl

theorem measure_state_eq (c : Circuit) (q : ℕ) (u : ℝ) :
    (measure_qubit c q u).1.state_vector =
      if (1 : ℝ) / 10 ^ 10 < collapseNorm c q (measure_qubit c q u).2 then
        scaledCollapse c q (measure_qubit c q u).2
          (1 / Real.sqrt (collapseNorm c q (measure_qubit c q u).2))
      else collapse c q (measure_qubit c q u).2 := rfl

theorem measure_frame (c : Circuit) (q : ℕ) (u : ℝ) :
    (measure_qubit c q u).1.num_qubits = c.num_qubits ∧
    (measure_qubit c q u).1.gates = c.gates ∧
    (measure_qubit c q u).1.initial_state = c.initial_state :=
  ⟨rfl, rfl, rfl⟩

theorem sumMagSq_scaled_collapse (c : Circuit) (q b : ℕ) (f : ℝ) :
    sumMagSq (scaledCollapse c q b f) = f ^ 2 * collapseNorm c q b := by
  unfold scaledCollapse sumMagSq collapse collapseNorm
  rw [List.map_map, List.map_map, sum_map_range, Finset.mul_sum]
  apply Finset.sum_congr rfl
  intro i _
  simp only [Function.comp_apply]
  split
  · rw [magnitude_sq, magnitude_sq]
    ring
  · rw [magnitude_sq]
    simp [czero]

theorem prob0_congr (c₁ c₂ : Circuit) (q : ℕ)
    (hn : c₁.num_qubits = c₂.num_qubits)
    (hs : c₁.state_vector = c₂.state_vector) :
    prob0 c₁ q = prob0 c₂ q := by
  unfold prob0
  rw [hn, hs]

theorem prob0_scaled_collapse (c : Circuit) (q b : ℕ) (f : ℝ) :
    prob0 { c with state_vector := scaledCollapse c q b f } q =
      if b = 0 then f ^ 2 * collapseNorm c q b else 0 := by
  unfold scaledCollapse prob0 collapse collapseNorm
  simp only
  by_cases hb : b = 0
  · subst hb
    simp only [if_pos rfl, Finset.mul_sum]
    apply Finset.sum_congr rfl
    intro i hi
    have hi' : i < 2 ^ c.num_qubits := Finset.mem_range.mp hi
    rw [List.map_map, getD_map_range _ _ i hi']
    simp only [Function.comp_apply]
    by_cases ht : Nat.testBit i (c.num_qubits - 1 - q)
    · have hmask : ¬(i &&& (1 <<< (c.num_qubits - 1 - q)) = 0) := by
        rw [maskCond_iff_testBit]
        simp [ht]
      have hbit : ¬((i >>> (c.num_qubits - 1 - q)) &&& 1 = 0) := by
        rw [bitval_eq_testBit, if_pos ht]
        simp
      rw [if_neg hmask, if_neg hbit]
      ring
    · have hmask : i &&& (1 <<< (c.num_qubits - 1 - q)) = 0 := by
        rw [maskCond_iff_testBit]
        simpa using ht
      have hbit : (i >>> (c.num_qubits - 1 - q)) &&& 1 = 0 := by
        rw [bitval_eq_testBit, if_neg ht]
      rw [if_pos hmask, if_pos hbit, magnitude_sq, magnitude_sq, if_pos hbit]
      ring
  · rw [if_neg hb]
    apply Finset.sum_eq_zero
    intro i hi
    have hi' : i < 2 ^ c.num_qubits := Finset.mem_range.mp hi
    rw [List.map_map, getD_map_range _ _ i hi']
    simp only [Function.comp_apply]
    by_cases hmask : i &&& (1 <<< (c.num_qubits - 1 - q)) = 0
    · have ht : Nat.testBit i (c.num_qubits - 1 - q) = false :=
        (maskCond_iff_testBit i _).mp hmask
      have hbit : ¬((i >>> (c.num_qubits - 1 - q)) &&& 1 = b) := by
        rw [bitval_eq_testBit, ht]
        simp
        omega
      rw [if_pos hmask, if_neg hbit, magnitude_sq]
      simp [czero]
    · rw [if_neg hmask]

/-- C6 (amended): in `measure_qubit`, when the post-collapse norm exceeds
`1e-10` every kept amplitude is scaled by `1/sqrt(norm)` and the new state
vector has squared norm exactly 1; when the norm is at most `1e-10` the
method does not fail: it completes normally, skips renormalization, and
installs the raw projected state. -/
theorem measure_renormalization (c : Circuit) (q : ℕ) (u : ℝ) :
    ((1 : ℝ) / 10 ^ 10 < collapseNorm c q (measure_qubit c q u).2 →
      (measure_qubit c q u).1.state_vector =
        scaledCollapse c q (measure_qubit c q u).2
          (1 / Real.sqrt (collapseNorm c q (measure_qubit c q u).2)) ∧
      sumMagSq (measure_qubit c q u).1.state_vector = 1) ∧
    (collapseNorm c q (measure_qubit c q u).2 ≤ (1 : ℝ) / 10 ^ 10 →
      (measure_qubit c q u).1.state_vector = collapse c q (measure_qubit c q u).2) := by
  constructor
  · intro h
    have hsv := measure_state_eq c q u
    rw [if_pos h] at hsv
    refine ⟨hsv, ?_⟩
    rw [hsv, sumMagSq_scaled_collapse]
    have hpos : 0 < collapseNorm c q (measure_qubit c q u).2 :=
      lt_trans (by positivity) h
    rw [div_pow, one_pow, Real.sq_sqrt hpos.le, one_div_mul_cancel hpos.ne']
  · intro h
    have hsv := measure_state_eq c q u
    rw [if_neg (not_lt.mpr h)] at hsv
    exact hsv

/-- Witness for C6 on a concrete measurement with norm 1 > 1e-10. -/
theorem measure_renormalization_witness :
    (1 : ℝ) / 10 ^ 10 < collapseNorm exCirc1 0 (measure_qubit exCirc1 0 (1 / 2)).2 ∧
    sumMagSq (measure_qubit exCirc1 0 (1 / 2)).1.state_vector = 1 := by
  have hp : prob0 exCirc1 0 = 1 := by
    unfold prob0 exCirc1
    simp [Finset.sum_range_succ, magnitude_sq, cone, czero]
  have hr : (measure_qubit exCirc1 0 (1 / 2)).2 = 0 := by
    rw [measure_result_eq, hp]
    norm_num
  have hn : collapseNorm exCirc1 0 0 = 1 := by
    unfold collapseNorm exCirc1
    simp [Finset.sum_range_succ, magnitude_sq, cone, czero]
  have hnorm : (1 : ℝ) / 10 ^ 10 < collapseNorm exCirc1 0 (measure_qubit exCirc1 0 (1 / 2)).2 := by
    rw [hr, hn]
    norm_num
  exact ⟨hnorm, ((measure_renormalization exCirc1 0 (1 / 2)).1 hnorm).2⟩

/-- Counterexample to C6 as stated: measuring the all-zero state gives a
post-collapse norm of 0 ≤ 1e-10, yet `measure_qubit` does not fail — it
completes, returns outcome 1, and leaves a silently non-normalized
(all-zero) state vector. -/
theorem measure_degenerate_completes_counterexample :
    (measure_qubit exCircZero 0 0).2 = 1 ∧
    sumMagSq (measure_qubit exCircZero 0 0).1.state_vector = 0 := by
  have hp : prob0 exCircZero 0 = 0 := by
    unfold prob0 exCircZero
    simp [Finset.sum_range_succ, magnitude_sq, czero]
  have hr : (measure_qubit exCircZero 0 0).2 = 1 := by
    rw [measure_result_eq, hp]
    norm_num
  have hn : collapseNorm exCircZero 0 1 = 0 := by
    unfold collapseNorm exCircZero
    simp [Finset.sum_range_succ, magnitude_sq, czero]
  have hsv := measure_state_eq exCircZero 0 0
  rw [hr, hn, if_neg (by norm_num)] at hsv
  have hcol : collapse exCircZero 0 1 = [czero, czero] := by
    unfold collapse exCircZero
    simp [List.range_succ]
  refine ⟨hr, ?_⟩
  rw [hsv, hcol]
  simp [sumMagSq, magnitude_sq, czero]

/-- C4 (amended): if the first measurement's post-collapse norm exceeds
`1e-10` (so renormalization takes place), a second measurement of the same
qubit with no intervening gate returns the same outcome for every value of
both random draws (the second being any valid `random.random()` output in
`[0, 1)`). -/
theorem measure_repeat_deterministic (c : Circuit) (q : ℕ) (u₁ u₂ : ℝ)
    (hnorm : (1 : ℝ) / 10 ^ 10 < collapseNorm c q (measure_qubit c q u₁).2)
    (h0 : 0 ≤ u₂) (h1 : u₂ < 1) :
    (measure_qubit (measure_qubit c q u₁).1 q u₂).2 = (measure_qubit c q u₁).2 := by
  have hpos : 0 < collapseNorm c q (measure_qubit c q u₁).2 :=
    lt_trans (by positivity) hnorm
  have hsv := measure_state_eq c q u₁
  rw [if_pos hnorm] at hsv
  set b := (measure_qubit c q u₁).2 with hbdef
  set f := 1 / Real.sqrt (collapseNorm c q b) with hfdef
  have hnq : (measure_qubit c q u₁).1.num_qubits = c.num_qubits := rfl
  have hprob : prob0 (measure_qubit c q u₁).1 q =
      if b = 0 then f ^ 2 * collapseNorm c q b else 0 := by
    rw [prob0_congr (measure_qubit c q u₁).1
      { c with state_vector := scaledCollapse c q b f } q hnq hsv]
    exact prob0_scaled_collapse c q b f
  have hsq : f ^ 2 * collapseNorm c q b = 1 := by
    rw [hfdef, div_pow, one_pow, Real.sq_sqrt hpos.le, one_div_mul_cancel hpos.ne']
  have hb : b = 0 ∨ b = 1 := by
    rw [hbdef, measure_result_eq]
    split
    · exact Or.inl rfl
    · exact Or.inr rfl
  rcases hb with hb | hb
  · rw [hb] at hsq
    rw [measure_result_eq, hprob, hb, if_pos rfl, hsq, if_pos h1]
  · rw [measure_result_eq, hprob, hb, if_neg one_ne_zero,
      if_neg (not_lt.mpr h0)]

/-- Witness for C4 on a concrete circuit where the first collapse has
norm 1. -/
theorem measure_repeat_deterministic_witness :
    ((1 : ℝ) / 10 ^ 10 < collapseNorm exCirc1 0 (measure_qubit exCirc1 0 (1 / 2)).2 ∧
      (0 : ℝ) ≤ 1 / 2 ∧ (1 / 2 : ℝ) < 1) ∧
    (measure_qubit (measure_qubit exCirc1 0 (1 / 2)).1 0 (1 / 2)).2 =
      (measure_qubit exCirc1 0 (1 / 2)).2 := by
  have hp : prob0 exCirc1 0 = 1 := by
    unfold prob0 exCirc1
    simp [Finset.sum_range_succ, magnitude_sq, cone, czero]
  have hr : (measure_qubit exCirc1 0 (1 / 2)).2 = 0 := by
    rw [measure_result_eq, hp]
    norm_num
  have hn : collapseNorm exCirc1 0 0 = 1 := by
    unfold collapseNorm exCirc1
    simp [Finset.sum_range_succ, magnitude_sq, cone, czero]
  have hnorm : (1 : ℝ) / 10 ^ 10 < collapseNorm exCirc1 0 (measure_qubit exCirc1 0 (1 / 2)).2 := by
    rw [hr, hn]
    norm_num
  exact ⟨⟨hnorm, by norm_num, by norm_num⟩,
    measure_repeat_deterministic exCirc1 0 (1 / 2) (1 / 2) hnorm (by norm_num) (by norm_num)⟩

/-- Counterexample to C4 as stated: on the (non-renormalizable) tiny state
`[1e-6, 0]`, a first measurement with draw 0 yields outcome 0, but the
collapse norm `1e-12` is below the `1e-10` threshold, the state is left
unscaled, and a second measurement of the same qubit with draw `1/2` yields
outcome 1; the repeated outcome depends on the random draw. -/
theorem measure_repeat_differs_counterexample :
    (measure_qubit exCircTiny 0 0).2 = 0 ∧
    (measure_qubit (measure_qubit exCircTiny 0 0).1 0 (1 / 2)).2 = 1 := by
  have hp : prob0 exCircTiny 0 = 1 / 10 ^ 12 := by
    unfold prob0 exCircTiny
    simp [Finset.sum_range_succ, magnitude_sq, czero]
    norm_num
  have hr : (measure_qubit exCircTiny 0 0).2 = 0 := by
    rw [measure_result_eq, hp]
    norm_num
  have hn : collapseNorm exCircTiny 0 0 = 1 / 10 ^ 12 := by
    unfold collapseNorm exCircTiny
    simp [Finset.sum_range_succ, magnitude_sq, czero]
    norm_num
  have hsv := measure_state_eq exCircTiny 0 0
  rw [hr, hn, if_neg (by norm_num)] at hsv
  have hcol : collapse exCircTiny 0 0 = exCircTiny.state_vector := by
    unfold collapse exCircTiny
    simp [List.range_succ]
  have hstate : (measure_qubit exCircTiny 0 0).1.state_vector = exCircTiny.state_vector := by
    rw [hsv, hcol]
  have hprob2 : prob0 (measure_qubit exCircTiny 0 0).1 0 = 1 / 10 ^ 12 := by
    rw [prob0_congr (measure_qubit exCircTiny 0 0).1 exCircTiny 0 rfl hstate, hp]
  refine ⟨hr, ?_⟩
  rw [measure_result_eq, hprob2]
  norm_num

theorem getD_map_range' {α : Type} (m : ℕ) (g : ℕ → α) (d : α) (i : ℕ) (hi : i < m) :
    ((List.range m).map g).getD i d = g i := by
  have hlen : i < ((List.range m).map g).length := by simpa using hi
  rw [List.getD_eq_getElem?_getD, List.getElem?_eq_getElem hlen]
  simp

theorem testBit_mul_pow_add (b m rest j : ℕ) (hb : b ≤ 1) (hrest : rest < 2 ^ m) :
    Nat.testBit (b * 2 ^ m + rest) j =
      (if j = m then decide (b = 1)
       else if j < m then Nat.testBit rest j else false) := by
  rcases Nat.lt_trichotomy j m with hj | hj | hj
  · rw [if_neg (by omega), if_pos hj]
    rw [Nat.testBit_to_div_mod, Nat.testBit_to_div_mod]
    have hm2 : 2 ^ j * 2 ^ (m - j) = 2 ^ m := by
      rw [← pow_add]
      congr 1
      omega
    have h1 : b * 2 ^ m + rest = rest + 2 ^ j * (b * 2 ^ (m - j)) := by
      rw [← hm2]
      ring
    rw [h1, Nat.add_mul_div_left _ _ (Nat.two_pow_pos j)]
    have he : b * 2 ^ (m - j) = b * 2 ^ (m - j - 1) * 2 := by
      rw [Nat.mul_assoc, ← pow_succ]
      congr 2
      omega
    rw [he, Nat.add_mul_mod_self_right]
  · subst hj
    rw [if_pos rfl, Nat.testBit_to_div_mod]
    have h1 : (b * 2 ^ j + rest) / 2 ^ j = b := by
      have hrw : b * 2 ^ j + rest = rest + 2 ^ j * b := by ring
      rw [hrw, Nat.add_mul_div_left _ _ (Nat.two_pow_pos j), Nat.div_eq_of_lt hrest]
      omega
    rw [h1]
    interval_cases b <;> simp
  · rw [if_neg (by omega), if_neg (by omega)]
    apply Nat.testBit_lt_two_pow
    have hlt : b * 2 ^ m + rest < 2 ^ (m + 1) := by
      have hb2 : b * 2 ^ m ≤ 2 ^ m := by
        calc b * 2 ^ m ≤ 1 * 2 ^ m := Nat.mul_le_mul_right _ hb
        _ = 2 ^ m := one_mul _
      have : (2 : ℕ) ^ (m + 1) = 2 ^ m * 2 := pow_succ 2 m
      omega
    calc b * 2 ^ m + rest < 2 ^ (m + 1) := hlt
    _ ≤ 2 ^ j := Nat.pow_le_pow_right (by norm_num) (by omega)

theorem localIdx_lt (n : ℕ) (qubits : List ℕ) (x : ℕ) :
    localIdx n qubits x < 2 ^ qubits.length := by
  induction qubits with
  | nil => simp [localIdx]
  | cons q qs ih =>
    have hb : (if qbit n x q then 1 else 0) = 0 ∨ (if qbit n x q then 1 else 0) = 1 := by
      split <;> simp
    have hpow : (2 : ℕ) ^ (q :: qs).length = 2 ^ qs.length * 2 := by
      rw [List.length_cons, pow_succ]
    show (if qbit n x q then 1 else 0) * 2 ^ qs.length + localIdx n qs x < 2 ^ (q :: qs).length
    rcases hb with h | h <;> rw [h] <;> omega

theorem localIdx_testBit (n : ℕ) (qubits : List ℕ) (x : ℕ) : ∀ j : ℕ,
    (Nat.testBit (localIdx n qubits x) j = true ↔
      (j < qubits.length ∧ qbit n x (qubits.getD (qubits.length - 1 - j) 0) = true)) := by
  induction qubits with
  | nil => intro j; simp [localIdx]
  | cons q qs ih =>
    intro j
    have hb : (if qbit n x q then 1 else 0) ≤ 1 := by split <;> omega
    show Nat.testBit ((if qbit n x q then 1 else 0) * 2 ^ qs.length + localIdx n qs x) j = true ↔ _
    rw [testBit_mul_pow_add _ _ _ j hb (localIdx_lt n qs x)]
    rcases Nat.lt_trichotomy j qs.length with hj | hj | hj
    · rw [if_neg (by omega), if_pos hj]
      have ht : (q :: qs).getD ((q :: qs).length - 1 - j) 0 =
          qs.getD (qs.length - 1 - j) 0 := by
        have h1 : (q :: qs).length - 1 - j = (qs.length - 1 - j) + 1 := by
          simp only [List.length_cons]
          omega
        rw [h1, List.getD_cons_succ]
      rw [ih j, ht]
      constructor
      · rintro ⟨_, h2⟩
        exact ⟨by simp only [List.length_cons]; omega, h2⟩
      · rintro ⟨_, h2⟩
        exact ⟨hj, h2⟩
    · rw [if_pos hj]
      have h0 : (q :: qs).length - 1 - j = 0 := by
        simp only [List.length_cons]
        omega
      rw [h0, List.getD_cons_zero]
      by_cases hq : qbit n x q
      · simp only [if_pos hq]
        constructor
        · intro _
          exact ⟨by simp only [List.length_cons]; omega, hq⟩
        · intro _
          decide
      · simp only [if_neg hq]
        constructor
        · intro hcon
          exact absurd hcon (by decide)
        · rintro ⟨_, h2⟩
          exact absurd h2 hq
    · rw [if_neg (by omega), if_neg (by omega)]
      constructor
      · intro hcon
        exact absurd hcon (by decide)
      · rintro ⟨h1, _⟩
        simp only [List.length_cons] at h1
        omega

theorem testBit_one_eq (m : ℕ) : Nat.testBit 1 m = decide (0 = m) := by
  rw [show (1 : ℕ) = 2 ^ 0 from (pow_zero 2).symm, Nat.testBit_two_pow]

theorem testBit_bit_shift (x e j : ℕ) (hx : x ≤ 1) :
    (Nat.testBit (x <<< e) j = true) ↔ (j = e ∧ x = 1) := by
  rw [Nat.testBit_shiftLeft]
  rcases Nat.le_one_iff_eq_zero_or_eq_one.mp hx with rfl | rfl
  · simp
  · rw [testBit_one_eq]
    simp only [Bool.and_eq_true, decide_eq_true_eq, ge_iff_le, and_true]
    omega

theorem gmeFold_none (n k : ℕ) (qubits : List ℕ) (row col : ℕ) (L : List ℕ)
    (i : ℕ) (hiL : i ∈ L) (hni : i ∉ qubits)
    (hne : (row >>> (n - 1 - i)) &&& 1 ≠ (col >>> (n - 1 - i)) &&& 1) :
    ∀ acc : ℕ × ℕ, gmeFold n k qubits row col L acc = none := by
  induction L with
  | nil => cases hiL
  | cons a L ih =>
    intro acc
    show (match gmeStep n k qubits row col a acc with
      | none => none
      | some acc' => gmeFold n k qubits row col L acc') = none
    rcases List.mem_cons.mp hiL with rfl | hmem
    · have hstep : gmeStep n k qubits row col i acc = none := by
        simp only [gmeStep]
        rw [if_neg hni, if_neg hne]
      rw [hstep]
    · cases gmeStep n k qubits row col a acc with
      | none => rfl
      | some acc' => exact ih hmem acc'

theorem gmeFold_some (n k : ℕ) (qubits : List ℕ) (row col : ℕ) (L : List ℕ)
    (h : ∀ i ∈ L, i ∉ qubits →
      (row >>> (n - 1 - i)) &&& 1 = (col >>> (n - 1 - i)) &&& 1) :
    ∀ acc : ℕ × ℕ, gmeFold n k qubits row col L acc =
      some (orAcc n k qubits row L acc.1, orAcc n k qubits col L acc.2) := by
  induction L with
  | nil => intro acc; rfl
  | cons a L ih =>
    intro acc
    have hrest : ∀ i ∈ L, i ∉ qubits →
        (row >>> (n - 1 - i)) &&& 1 = (col >>> (n - 1 - i)) &&& 1 :=
      fun i hi => h i (List.mem_cons_of_mem a hi)
    show (match gmeStep n k qubits row col a acc with
      | none => none
      | some acc' => gmeFold n k qubits row col L acc') = _
    by_cases hmem : a ∈ qubits
    · have hstep : gmeStep n k qubits row col a acc =
          some (acc.1 ||| (((row >>> (n - 1 - a)) &&& 1) <<< (k - 1 - qubits.indexOf a)),
                acc.2 ||| (((col >>> (n - 1 - a)) &&& 1) <<< (k - 1 - qubits.indexOf a))) := by
        simp only [gmeStep]
        rw [if_pos hmem]
      simp only [hstep]
      rw [ih hrest]
      have ho1 : orAcc n k qubits row (a :: L) acc.1 =
          orAcc n k qubits row L
            (acc.1 ||| (((row >>> (n - 1 - a)) &&& 1) <<< (k - 1 - qubits.indexOf a))) := by
        simp [orAcc, hmem]
      have ho2 : orAcc n k qubits col (a :: L) acc.2 =
          orAcc n k qubits col L
            (acc.2 ||| (((col >>> (n - 1 - a)) &&& 1) <<< (k - 1 - qubits.indexOf a))) := by
        simp [orAcc, hmem]
      rw [ho1, ho2]
    · have hbits := h a (List.mem_cons_self a L) hmem
      have hstep : gmeStep n k qubits row col a acc = some acc := by
        simp only [gmeStep]
        rw [if_neg hmem, if_pos hbits]
      simp only [hstep]
      rw [ih hrest]
      have ho1 : orAcc n k qubits row (a :: L) acc.1 = orAcc n k qubits row L acc.1 := by
        simp [orAcc, hmem]
      have ho2 : orAcc n k qubits col (a :: L) acc.2 = orAcc n k qubits col L acc.2 := by
        simp [orAcc, hmem]
      rw [ho1, ho2]

theorem orAcc_testBit (n k : ℕ) (qubits : List ℕ) (src : ℕ) (L : List ℕ) :
    ∀ (a j : ℕ), (Nat.testBit (orAcc n k qubits src L a) j = true ↔
      (Nat.testBit a j = true ∨ ∃ i, i ∈ L ∧ i ∈ qubits ∧
        k - 1 - qubits.indexOf i = j ∧ (src >>> (n - 1 - i)) &&& 1 = 1)) := by
  induction L with
  | nil => intro a j; simp [orAcc]
  | cons b L ih =>
    intro a j
    have hx1 : (src >>> (n - 1 - b)) &&& 1 ≤ 1 := by
      rw [Nat.and_one_is_mod]
      omega
    by_cases hmem : b ∈ qubits
    · have hstep : orAcc n k qubits src (b :: L) a =
          orAcc n k qubits src L
            (a ||| (((src >>> (n - 1 - b)) &&& 1) <<< (k - 1 - qubits.indexOf b))) := by
        unfold orAcc
        simp [hmem]
      rw [hstep, ih, Nat.testBit_or, Bool.or_eq_true,
        testBit_bit_shift _ _ _ hx1]
      constructor
      · rintro ((h | ⟨rfl, hb1⟩) | ⟨i, hiL, hiq, hje, hb1⟩)
        · exact Or.inl h
        · exact Or.inr ⟨b, List.mem_cons_self b L, hmem, rfl, hb1⟩
        · exact Or.inr ⟨i, List.mem_cons_of_mem b hiL, hiq, hje, hb1⟩
      · rintro (h | ⟨i, hiL, hiq, hje, hb1⟩)
        · exact Or.inl (Or.inl h)
        · rcases List.mem_cons.mp hiL with rfl | hiL'
          · exact Or.inl (Or.inr ⟨hje.symm, hb1⟩)
          · exact Or.inr ⟨i, hiL', hiq, hje, hb1⟩
    · have hstep : orAcc n k qubits src (b :: L) a = orAcc n k qubits src L a := by
        unfold orAcc
        simp [hmem]
      rw [hstep, ih]
      constructor
      · rintro (h | ⟨i, hiL, hiq, hje, hb1⟩)
        · exact Or.inl h
        · exact Or.inr ⟨i, List.mem_cons_of_mem b hiL, hiq, hje, hb1⟩
      · rintro (h | ⟨i, hiL, hiq, hje, hb1⟩)
        · exact Or.inl h
        · rcases List.mem_cons.mp hiL with rfl | hiL'
          · exact absurd hiq hmem
          · exact Or.inr ⟨i, hiL', hiq, hje, hb1⟩

theorem orAcc_range_eq_localIdx (n : ℕ) (qubits : List ℕ) (src : ℕ)
    (hnodup : qubits.Nodup) (hlt : ∀ q ∈ qubits, q < n) :
    orAcc n qubits.length qubits src (List.range n) 0 = localIdx n qubits src := by
  apply Nat.eq_of_testBit_eq
  intro j
  rw [Bool.eq_iff_iff, orAcc_testBit n qubits.length qubits src (List.range n) 0 j,
    localIdx_testBit n qubits src j]
  constructor
  · rintro (h | ⟨i, _, hiq, hje, hb1⟩)
    · exact absurd h (by simp)
    · have hplt : qubits.indexOf i < qubits.length := List.indexOf_lt_length.mpr hiq
      refine ⟨by omega, ?_⟩
      have hpj : qubits.length - 1 - j = qubits.indexOf i := by omega
      have hgd : qubits.getD (qubits.indexOf i) 0 = i := by
        rw [List.getD_eq_getElem _ _ hplt, List.getElem_indexOf hplt]
      rw [hpj, hgd]
      rw [bitval_eq_testBit] at hb1
      unfold qbit
      by_cases ht : Nat.testBit src (n - 1 - i)
      · exact ht
      · rw [if_neg ht] at hb1
        omega
  · rintro ⟨hj, hq⟩
    right
    have hplt : qubits.length - 1 - j < qubits.length := by omega
    have hgd : qubits.getD (qubits.length - 1 - j) 0 =
        qubits[qubits.length - 1 - j] := List.getD_eq_getElem _ _ hplt
    have himem : qubits.getD (qubits.length - 1 - j) 0 ∈ qubits := by
      rw [hgd]
      exact List.getElem_mem hplt
    refine ⟨qubits.getD (qubits.length - 1 - j) 0,
      List.mem_range.mpr (hlt _ himem), himem, ?_, ?_⟩
    · have hidx : qubits.indexOf (qubits.getD (qubits.length - 1 - j) 0) =
          qubits.length - 1 - j := by
        rw [hgd]
        exact List.indexOf_getElem hnodup _ hplt
      omega
    · rw [bitval_eq_testBit]
      unfold qbit at hq
      rw [if_pos hq]

theorem gme_eq_specEntry (n : ℕ) (M : CMatrix) (qubits : List ℕ) (row col : ℕ)
    (hnodup : qubits.Nodup) (hlt : ∀ q ∈ qubits, q < n)
    (hM : M.length = 2 ^ qubits.length) :
    get_matrix_element n M qubits row col = specEntry n M qubits row col := by
  have hbits : Nat.log2 M.length = qubits.length := by
    rw [hM, Nat.log2_eq_log_two, Nat.log_pow one_lt_two]
  show (match gmeFold n (Nat.log2 M.length) qubits row col (List.range n) (0, 0) with
    | none => czero
    | some (gr, gc) => (M.getD gr []).getD gc czero) = specEntry n M qubits row col
  rw [hbits]
  by_cases hmm : ∀ i < n, i ∉ qubits → qbit n row i = qbit n col i
  · have hmm' : ∀ i ∈ List.range n, i ∉ qubits →
        (row >>> (n - 1 - i)) &&& 1 = (col >>> (n - 1 - i)) &&& 1 := by
      intro i hi hni
      have h := hmm i (List.mem_range.mp hi) hni
      rw [bitval_eq_testBit, bitval_eq_testBit]
      unfold qbit at h
      rw [h]
    rw [gmeFold_some n qubits.length qubits row col (List.range n) hmm' (0, 0)]
    show (M.getD (orAcc n qubits.length qubits row (List.range n) 0) []).getD
        (orAcc n qubits.length qubits col (List.range n) 0) czero = _
    rw [orAcc_range_eq_localIdx n qubits row hnodup hlt,
        orAcc_range_eq_localIdx n qubits col hnodup hlt]
    unfold specEntry
    rw [if_pos hmm]
  · have hmm0 := hmm
    push_neg at hmm
    obtain ⟨i, hin, hni, hne⟩ := hmm
    have hne' : (row >>> (n - 1 - i)) &&& 1 ≠ (col >>> (n - 1 - i)) &&& 1 := by
      rw [bitval_eq_testBit, bitval_eq_testBit]
      revert hne
      unfold qbit
      by_cases h1 : Nat.testBit row (n - 1 - i) <;>
        by_cases h2 : Nat.testBit col (n - 1 - i) <;> simp [h1, h2]
    rw [gmeFold_none n qubits.length qubits row col (List.range n) i
      (List.mem_range.mpr hin) hni hne' (0, 0)]
    unfold specEntry
    rw [if_neg hmm0]

theorem complex_add_def (a b : Complex) : a + b = a.add b := rfl

theorem complex_zero_def : (0 : Complex) = czero := rfl

theorem foldl_add_eq_sum (m : ℕ) (f : ℕ → Complex) :
    (List.range m).foldl (fun acc j => acc.add (f j)) czero =
      ∑ j in Finset.range m, f j := by
  have hgen : ∀ (m : ℕ) (a : Complex),
      (List.range m).foldl (fun acc j => acc.add (f j)) a =
        a + ∑ j in Finset.range m, f j := by
    intro m
    induction m with
    | zero => intro a; simp
    | succ t ih =>
      intro a
      rw [List.range_succ, List.foldl_append, ih a, Finset.sum_range_succ,
        List.foldl_cons, List.foldl_nil, ← complex_add_def]
      exact add_assoc a _ _
  rw [hgen m czero, ← complex_zero_def, zero_add]

theorem expand_getD (n : ℕ) (M : CMatrix) (qubits : List ℕ) (r col : ℕ)
    (hr : r < 2 ^ n) (hc : col < 2 ^ n) :
    ((expand_gate_matrix n M qubits).getD r []).getD col czero =
      get_matrix_element n M qubits r col := by
  unfold expand_gate_matrix
  rw [getD_map_range' _ _ _ r hr, getD_map_range' _ _ _ col hc]

theorem multiply_getD (m : CMatrix) (v : StateVec) (r : ℕ) (hr : r < v.length) :
    (multiply_matrix_vector m v).getD r czero = row_dot (m.getD r []) v := by
  unfold multiply_matrix_vector
  rw [getD_map_range' _ _ _ r hr]

theorem row_dot_eq_sum (rowv : List Complex) (v : StateVec) :
    row_dot rowv v =
      ∑ j in Finset.range v.length, (rowv.getD j czero).multiply (v.getD j czero) := by
  unfold row_dot
  rw [foldl_add_eq_sum]

/-- C1: for a registered gate matrix of dimension `2^k` and an ordered list
of `k` distinct target qubits below `num_qubits`, the full matrix built by
`expand_gate_matrix` coincides entry-by-entry with the tensor-embedded
operator `specEntry` — zero whenever a non-target qubit's bit differs
between row and column, otherwise the local gate entry at the local indices
formed by placing the i-th listed target's bit at local position
`k - 1 - i` (qubit 0 being the most-significant bit) — and `apply_gate`
replaces the state vector by this operator applied to it. -/
theorem expand_apply_is_tensor_embedding (c : Circuit) (gname : String)
    (g : GateDef) (M : CMatrix) (qubits : List ℕ)
    (_hn : 1 ≤ c.num_qubits)
    (hnodup : qubits.Nodup) (hlt : ∀ q ∈ qubits, q < c.num_qubits)
    (hgate : GATES gname = some g) (hmat : g.matrix = some M)
    (hM : M.length = 2 ^ qubits.length)
    (hsv : c.state_vector.length = 2 ^ c.num_qubits) :
    (∀ r col, r < 2 ^ c.num_qubits → col < 2 ^ c.num_qubits →
      ((expand_gate_matrix c.num_qubits M qubits).getD r []).getD col czero =
        specEntry c.num_qubits M qubits r col) ∧
    (∀ r, r < 2 ^ c.num_qubits →
      (apply_gate c gname qubits).state_vector.getD r czero =
        ∑ j in Finset.range (2 ^ c.num_qubits),
          (specEntry c.num_qubits M qubits r j).multiply
            (c.state_vector.getD j czero)) := by
  have hentry : ∀ r col, r < 2 ^ c.num_qubits → col < 2 ^ c.num_qubits →
      ((expand_gate_matrix c.num_qubits M qubits).getD r []).getD col czero =
        specEntry c.num_qubits M qubits r col := by
    intro r col hr hc
    rw [expand_getD c.num_qubits M qubits r col hr hc]
    exact gme_eq_specEntry c.num_qubits M qubits r col hnodup hlt hM
  refine ⟨hentry, ?_⟩
  intro r hr
  have happly : apply_gate c gname qubits =
      { c with state_vector := multiply_matrix_vector (expand_gate_matrix c.num_qubits M qubits) c.state_vector } := by
    simp only [apply_gate, hgate, hmat]
  rw [happly]
  show (multiply_matrix_vector (expand_gate_matrix c.num_qubits M qubits)
      c.state_vector).getD r czero = _
  have hr' : r < c.state_vector.length := by rw [hsv]; exact hr
  rw [multiply_getD _ _ r hr', row_dot_eq_sum, hsv]
  apply Finset.sum_congr rfl
  intro j hj
  rw [hentry r j hr (Finset.mem_range.mp hj)]

/-- Witness for C1: the X gate on a 1-qubit circuit with targets `[0]`,
evaluated at row 0. -/
theorem expand_apply_is_tensor_embedding_witness :
    (1 ≤ exCirc1.num_qubits ∧ ([0] : List ℕ).Nodup ∧
      (∀ q ∈ ([0] : List ℕ), q < exCirc1.num_qubits) ∧
      GATES "X" = some gateX ∧
      gateX.matrix = some [[cr 0, cr 1], [cr 1, cr 0]] ∧
      ([[cr 0, cr 1], [cr 1, cr 0]] : CMatrix).length = 2 ^ ([0] : List ℕ).length ∧
      exCirc1.state_vector.length = 2 ^ exCirc1.num_qubits) ∧
    (apply_gate exCirc1 "X" [0]).state_vector.getD 0 czero =
      ∑ j in Finset.range (2 ^ exCirc1.num_qubits),
        (specEntry exCirc1.num_qubits [[cr 0, cr 1], [cr 1, cr 0]] [0] 0 j).multiply
          (exCirc1.state_vector.getD j czero) := by
  have h1 : GATES "X" = some gateX := by
    simp [GATES, gateX]
  refine ⟨⟨le_refl 1, by decide, by decide, h1, rfl, by decide, by simp [exCirc1]⟩, ?_⟩
  exact (expand_apply_is_tensor_embedding exCirc1 "X" gateX
    [[cr 0, cr 1], [cr 1, cr 0]] [0] (le_refl 1) (by decide) (by decide)
    h1 rfl (by decide) (by simp [exCirc1])).2 0 (by norm_num)

end QSim
